import Mathlib

set_option maxRecDepth 100000

/-!
# Verification of the trowbridge-family-budget persistence and sync layer

Shallow embedding of the repository's state persistence/synchronization
fragment (`src/lib/crypto.ts`, `src/lib/storage.ts`) and of the monthly
allocation carry-forward state machine embedded in `src/App.tsx`,
together with proofs settling the specification's claims.

Modelling conventions:
* JavaScript strings and byte arrays are modelled as `List Nat` (code units /
  byte values).
* Month keys (`YYYY-MM` strings) are modelled as `Nat`.  The source compares
  and sorts month keys with JavaScript string comparison; since the keys are
  fixed-width zero-padded strings, lexicographic order on them coincides with
  chronological order, which the `Nat` order mirrors exactly.
* JavaScript objects used as finite maps (`Record<string, number>`) are
  modelled as association lists with unique keys; lookup is first-match.
* Platform primitives that the repository calls but does not define
  (`JSON.stringify`/`JSON.parse`, `TextEncoder`, `btoa`/`atob`,
  `crypto.subtle` PBKDF2 and AES-GCM) are modelled as concrete executable
  functions that satisfy exactly the contracts the specification assigns
  to them; each such definition carries a doc comment saying so.
-/

/-! ## Prefix-free byte encoding of natural numbers

A reversible encoding of a natural number as a list of byte values
(little-endian binary digits terminated by the marker byte `2`).  Used as
the concrete "canonical byte representation" backing the modelled platform
serialization and transport-encoding primitives. -/

/-- Little-endian binary digits, with explicit structural fuel (the fuel is
an upper bound on the value, so `binDigits` below is total). -/
def binDigitsAux : Nat → Nat → List Nat
  | 0, _ => []
  | fuel + 1, n => if n = 0 then [] else (n % 2) :: binDigitsAux fuel (n / 2)

/-- Little-endian binary digits of `n` (each digit is `0` or `1`). -/
def binDigits (n : Nat) : List Nat := binDigitsAux n n

theorem binDigitsAux_congr (fuel n : Nat) (h : n ≤ fuel) :
    binDigitsAux fuel n = binDigits n := by
  induction fuel using Nat.strong_induction_on generalizing n with
  | _ fuel ih =>
    cases fuel with
    | zero =>
      have : n = 0 := by omega
      subst this
      rfl
    | succ f =>
      by_cases hn : n = 0
      · subst hn
        simp [binDigitsAux, binDigits]
      · have hlt : n / 2 < n := Nat.div_lt_self (Nat.pos_of_ne_zero hn) (by omega)
        obtain ⟨m, rfl⟩ : ∃ m, n = m + 1 := ⟨n - 1, by omega⟩
        rw [binDigitsAux, if_neg hn]
        rw [binDigits, binDigitsAux, if_neg hn]
        rw [ih f (by omega) _ (by omega), ih m (by omega) _ (by omega)]

/-- Encode a natural number as bytes: binary digits then the terminator `2`. -/
def natBytes (n : Nat) : List Nat := binDigits n ++ [2]

/-- Parse one `natBytes`-encoded number from the front of a byte list,
returning the number and the remaining bytes. -/
def parseNatB : List Nat → Option (Nat × List Nat)
  | [] => none
  | d :: rest =>
    if d = 2 then some (0, rest)
    else
      match parseNatB rest with
      | some (n, r) => some (d + 2 * n, r)
      | none => none

theorem binDigits_zero : binDigits 0 = [] := rfl

theorem binDigits_pos {n : Nat} (h : n ≠ 0) :
    binDigits n = (n % 2) :: binDigits (n / 2) := by
  obtain ⟨m, rfl⟩ : ∃ m, n = m + 1 := ⟨n - 1, by omega⟩
  rw [binDigits, binDigitsAux, if_neg h]
  rw [binDigitsAux_congr m ((m + 1) / 2) (by omega)]

theorem binDigits_lt_two {n d : Nat} (h : d ∈ binDigits n) : d < 2 := by
  induction n using Nat.strong_induction_on with
  | _ n ih =>
    by_cases hn : n = 0
    · subst hn; rw [binDigits_zero] at h; cases h
    · rw [binDigits_pos hn] at h
      rcases List.mem_cons.mp h with h1 | h2
      · subst h1; exact Nat.mod_lt _ (by omega)
      · exact ih (n / 2) (Nat.div_lt_self (Nat.pos_of_ne_zero hn) (by omega)) h2

/-- `parseNatB` inverts `natBytes`, leaving the rest of the input intact. -/
theorem parseNatB_natBytes (n : Nat) (rest : List Nat) :
    parseNatB (natBytes n ++ rest) = some (n, rest) := by
  induction n using Nat.strong_induction_on with
  | _ n ih =>
    by_cases hn : n = 0
    · subst hn
      simp [natBytes, binDigits_zero, parseNatB]
    · have hdig : n % 2 < 2 := Nat.mod_lt _ (by omega)
      have hrec := ih (n / 2) (Nat.div_lt_self (Nat.pos_of_ne_zero hn) (by omega))
      rw [natBytes, binDigits_pos hn]
      simp only [List.cons_append, List.append_assoc]
      rw [parseNatB]
      have hne : ¬ (n % 2 = 2) := by omega
      simp only [hne, if_false]
      rw [natBytes] at hrec
      simp only [List.append_assoc, List.singleton_append, List.nil_append] at hrec ⊢
      rw [hrec]
      show some (n % 2 + 2 * (n / 2), rest) = some (n, rest)
      have hsum : n % 2 + 2 * (n / 2) = n := by omega
      rw [hsum]

theorem natBytes_length_pos (n : Nat) : 0 < (natBytes n).length := by
  simp [natBytes]

/-! ## Length-prefixed encoding of byte lists -/

/-- Length-prefixed encoding of a list of naturals: an encoded count
followed by the `natBytes` code of each element. -/
def listBytes (l : List Nat) : List Nat := natBytes l.length ++ l.flatMap natBytes

/-- Parse exactly `n` `natBytes`-encoded numbers. -/
def parseItems : Nat → List Nat → Option (List Nat × List Nat)
  | 0, l => some ([], l)
  | n + 1, l =>
    match parseNatB l with
    | some (x, r) =>
      match parseItems n r with
      | some (xs, r') => some (x :: xs, r')
      | none => none
    | none => none

/-- Parse one `listBytes`-encoded list from the front of the input. -/
def parseListB (l : List Nat) : Option (List Nat × List Nat) :=
  match parseNatB l with
  | some (n, r) => parseItems n r
  | none => none

theorem parseItems_flatMap (l : List Nat) (rest : List Nat) :
    parseItems l.length (l.flatMap natBytes ++ rest) = some (l, rest) := by
  induction l generalizing rest with
  | nil => simp [parseItems]
  | cons x xs ih =>
    simp only [List.flatMap_cons, List.length_cons, List.append_assoc]
    simp [parseItems, parseNatB_natBytes, ih]

/-- `parseListB` inverts `listBytes`, leaving the rest of the input intact. -/
theorem parseListB_listBytes (l : List Nat) (rest : List Nat) :
    parseListB (listBytes l ++ rest) = some (l, rest) := by
  simp [listBytes, List.append_assoc, parseListB, parseNatB_natBytes, parseItems_flatMap]

/-! ## Transport text encoding (model of the platform `btoa` / `atob`)

`src/lib/crypto.ts` defines `b64Encode` / `b64DecodeToBytes`, which convert
between byte arrays and text by composing a char-code loop with the
platform's `btoa` / `atob`.  With JavaScript strings modelled as `List Nat`
the char-code loops are the identity, so the helpers reduce to the platform
pair itself. -/

/-- Modelled from the spec: the platform `btoa` ("transport-encoded as text
(base64 or equivalent)") — a reversible, injective encoding of a byte
sequence as text, realised here as the concatenation of prefix-free
`natBytes` codes. -/
def btoaModel (l : List Nat) : List Nat := l.flatMap natBytes

def atobAux : Nat → List Nat → Option (List Nat)
  | _, [] => some []
  | 0, _ :: _ => none
  | fuel + 1, d :: r0 =>
    match parseNatB (d :: r0) with
    | some (x, r) =>
      match atobAux fuel r with
      | some xs => some (x :: xs)
      | none => none
    | none => none

/-- Modelled from the spec: the platform `atob`, the partial inverse of
`btoa`; fails on text that is not a valid encoding. -/
def atobModel (l : List Nat) : Option (List Nat) := atobAux l.length l

/-- `b64Encode` from `src/lib/crypto.ts`: bytes → transport text (the
char-code loop is the identity on the `List Nat` model of strings). -/
def b64Encode (bytes : List Nat) : List Nat := btoaModel bytes

/-- `b64DecodeToBytes` from `src/lib/crypto.ts`: transport text → bytes. -/
def b64DecodeToBytes (s : List Nat) : Option (List Nat) := atobModel s

theorem atobAux_btoaModel (l : List Nat) (fuel : Nat)
    (h : (btoaModel l).length ≤ fuel) : atobAux fuel (btoaModel l) = some l := by
  induction l generalizing fuel with
  | nil => cases fuel <;> simp [btoaModel, atobAux]
  | cons x xs ih =>
    have hxpos := natBytes_length_pos x
    have hlen : (btoaModel (x :: xs)).length
        = (natBytes x).length + (btoaModel xs).length := by
      simp [btoaModel]
    cases fuel with
    | zero => omega
    | succ f =>
      have hne : btoaModel (x :: xs) = natBytes x ++ btoaModel xs := by
        simp [btoaModel]
      have hcons : ∃ d r0, natBytes x ++ btoaModel xs = d :: r0 := by
        cases hnx : natBytes x with
        | nil => rw [hnx] at hxpos; simp at hxpos
        | cons d r => exact ⟨d, r ++ btoaModel xs, by simp [hnx]⟩
      obtain ⟨d, r0, hdr⟩ := hcons
      rw [hne, hdr]
      have hparse : parseNatB (d :: r0) = some (x, btoaModel xs) := by
        rw [← hdr]; exact parseNatB_natBytes x (btoaModel xs)
      have hrest : atobAux f (btoaModel xs) = some xs := by
        apply ih; omega
      rw [atobAux]
      simp only [hparse, hrest]

/-- `atob ∘ btoa` is the identity on byte lists. -/
theorem atobModel_btoaModel (l : List Nat) : atobModel (btoaModel l) = some l :=
  atobAux_btoaModel l (btoaModel l).length (Nat.le_refl _)

/-! ## JSON documents

The documents handled by the codec (`JSON.stringify` / `JSON.parse` values):
null, booleans, numbers, strings, arrays and objects.  Strings are lists of
code units; numbers are modelled as integers (the carry-forward and
persistence logic never performs arithmetic on them). -/

mutual
inductive Json : Type where
  | null : Json
  | bool : Bool → Json
  | num : Int → Json
  | str : List Nat → Json
  | arr : JsonArr → Json
  | obj : JsonObj → Json
inductive JsonArr : Type where
  | nil : JsonArr
  | cons : Json → JsonArr → JsonArr
inductive JsonObj : Type where
  | nil : JsonObj
  | cons : List Nat → Json → JsonObj → JsonObj
end

deriving instance DecidableEq for Json
deriving instance DecidableEq for JsonArr
deriving instance DecidableEq for JsonObj

def lenArr : JsonArr → Nat
  | .nil => 0
  | .cons _ t => lenArr t + 1

def lenObj : JsonObj → Nat
  | .nil => 0
  | .cons _ _ t => lenObj t + 1

/-! ### Serialization (model of `JSON.stringify` composed with `TextEncoder`)

Modelled from the spec: "Serializes `document` to a canonical byte
representation (e.g., UTF-8 JSON)" — a concrete injective byte
serialization of documents with an executable partial inverse, standing
for the platform pair `JSON.stringify`/`JSON.parse` (composed with
UTF-8 text encoding/decoding), which the repository calls but does not
define. -/

mutual
def serJson : Json → List Nat
  | .null => [0]
  | .bool b => [1, cond b 1 0]
  | .num n => 2 :: (if n < 0 then 1 else 0) :: natBytes n.natAbs
  | .str s => 3 :: listBytes s
  | .arr a => 4 :: (natBytes (lenArr a) ++ serArr a)
  | .obj o => 5 :: (natBytes (lenObj o) ++ serObj o)
def serArr : JsonArr → List Nat
  | .nil => []
  | .cons h t => serJson h ++ serArr t
def serObj : JsonObj → List Nat
  | .nil => []
  | .cons k v t => listBytes k ++ serJson v ++ serObj t
end

/-- Parse exactly `n` array elements with the element parser `pj`. -/
def parseArrAux (pj : List Nat → Option (Json × List Nat)) :
    Nat → List Nat → Option (JsonArr × List Nat)
  | 0, l => some (.nil, l)
  | n + 1, l =>
    match pj l with
    | some (j, r) =>
      match parseArrAux pj n r with
      | some (a, r') => some (.cons j a, r')
      | none => none
    | none => none

/-- Parse exactly `n` object fields with the value parser `pj`. -/
def parseObjAux (pj : List Nat → Option (Json × List Nat)) :
    Nat → List Nat → Option (JsonObj × List Nat)
  | 0, l => some (.nil, l)
  | n + 1, l =>
    match parseListB l with
    | some (k, r) =>
      match pj r with
      | some (v, r') =>
        match parseObjAux pj n r' with
        | some (o, r'') => some (.cons k v o, r'')
        | none => none
      | none => none
    | none => none

/-- Parse one serialized document (fuel bounds the nesting depth). -/
def parseJson : Nat → List Nat → Option (Json × List Nat)
  | 0, _ => none
  | _ + 1, [] => none
  | fuel + 1, t :: r =>
    if t = 0 then some (.null, r)
    else if t = 1 then
      match r with
      | b :: r' => some (.bool (b == 1), r')
      | [] => none
    else if t = 2 then
      match r with
      | s :: r' =>
        match parseNatB r' with
        | some (m, r'') => some (.num (if s = 1 then -(m : Int) else (m : Int)), r'')
        | none => none
      | [] => none
    else if t = 3 then
      match parseListB r with
      | some (s, r') => some (.str s, r')
      | none => none
    else if t = 4 then
      match parseNatB r with
      | some (n, r') =>
        match parseArrAux (parseJson fuel) n r' with
        | some (a, r'') => some (.arr a, r'')
        | none => none
      | none => none
    else if t = 5 then
      match parseNatB r with
      | some (n, r') =>
        match parseObjAux (parseJson fuel) n r' with
        | some (o, r'') => some (.obj o, r'')
        | none => none
      | none => none
    else none

/-! ### Codec round trip -/

mutual
def needJ : Json → Nat
  | .null => 1
  | .bool _ => 1
  | .num _ => 1
  | .str _ => 1
  | .arr a => needA a + 1
  | .obj o => needO o + 1
def needA : JsonArr → Nat
  | .nil => 0
  | .cons h t => max (needJ h) (needA t)
def needO : JsonObj → Nat
  | .nil => 0
  | .cons _ v t => max (needJ v) (needO t)
end

mutual
def roundJ : ∀ (d : Json) (fuel : Nat) (rest : List Nat), needJ d ≤ fuel →
    parseJson fuel (serJson d ++ rest) = some (d, rest)
  | .null, fuel, rest, h => by
    obtain ⟨f, rfl⟩ : ∃ f, fuel = f + 1 := ⟨fuel - 1, by simp [needJ] at h; omega⟩
    simp only [serJson, List.cons_append, List.nil_append]
    rw [parseJson.eq_def]
    simp
  | .bool b, fuel, rest, h => by
    obtain ⟨f, rfl⟩ : ∃ f, fuel = f + 1 := ⟨fuel - 1, by simp [needJ] at h; omega⟩
    simp only [serJson, List.cons_append, List.nil_append]
    rw [parseJson.eq_def]
    cases b <;> simp
  | .num n, fuel, rest, h => by
    obtain ⟨f, rfl⟩ : ∃ f, fuel = f + 1 := ⟨fuel - 1, by simp [needJ] at h; omega⟩
    by_cases hneg : n < 0
    · have hval : -(|n|) = n := by rw [abs_of_neg hneg]; simp
      simp only [serJson, hneg, if_pos, List.cons_append, List.append_assoc]
      rw [parseJson.eq_def]
      simp [parseNatB_natBytes, hval]
    · have hval : ((n.natAbs : Int)) = n := by omega
      simp only [serJson, hneg, if_neg, List.cons_append, List.append_assoc]
      rw [parseJson.eq_def]
      simp [parseNatB_natBytes, hval]
  | .str s, fuel, rest, h => by
    obtain ⟨f, rfl⟩ : ∃ f, fuel = f + 1 := ⟨fuel - 1, by simp [needJ] at h; omega⟩
    simp only [serJson, List.cons_append, List.append_assoc]
    rw [parseJson.eq_def]
    simp [parseListB_listBytes]
  | .arr a, fuel, rest, h => by
    obtain ⟨f, rfl⟩ : ∃ f, fuel = f + 1 := ⟨fuel - 1, by simp [needJ] at h; omega⟩
    have hA : needA a ≤ f := by simp [needJ] at h; omega
    simp only [serJson, List.cons_append, List.append_assoc]
    rw [parseJson.eq_def]
    simp [parseNatB_natBytes, roundA a f rest hA]
  | .obj o, fuel, rest, h => by
    obtain ⟨f, rfl⟩ : ∃ f, fuel = f + 1 := ⟨fuel - 1, by simp [needJ] at h; omega⟩
    have hO : needO o ≤ f := by simp [needJ] at h; omega
    simp only [serJson, List.cons_append, List.append_assoc]
    rw [parseJson.eq_def]
    simp [parseNatB_natBytes, roundO o f rest hO]
def roundA : ∀ (a : JsonArr) (fuel : Nat) (rest : List Nat), needA a ≤ fuel →
    parseArrAux (parseJson fuel) (lenArr a) (serArr a ++ rest) = some (a, rest)
  | .nil, fuel, rest, _ => by
    simp [lenArr, serArr, parseArrAux]
  | .cons hd tl, fuel, rest, h => by
    have hJ : needJ hd ≤ fuel := by simp [needA] at h; omega
    have hT : needA tl ≤ fuel := by simp [needA] at h; omega
    have h1 : parseJson fuel (serJson hd ++ (serArr tl ++ rest))
        = some (hd, serArr tl ++ rest) := roundJ hd fuel (serArr tl ++ rest) hJ
    have h2 : parseArrAux (parseJson fuel) (lenArr tl) (serArr tl ++ rest)
        = some (tl, rest) := roundA tl fuel rest hT
    simp [lenArr, serArr, parseArrAux, List.append_assoc, h1, h2]
def roundO : ∀ (o : JsonObj) (fuel : Nat) (rest : List Nat), needO o ≤ fuel →
    parseObjAux (parseJson fuel) (lenObj o) (serObj o ++ rest) = some (o, rest)
  | .nil, fuel, rest, _ => by
    simp [lenObj, serObj, parseObjAux]
  | .cons k v tl, fuel, rest, h => by
    have hJ : needJ v ≤ fuel := by simp [needO] at h; omega
    have hT : needO tl ≤ fuel := by simp [needO] at h; omega
    have h0 : parseListB (listBytes k ++ (serJson v ++ (serObj tl ++ rest)))
        = some (k, serJson v ++ (serObj tl ++ rest)) := parseListB_listBytes _ _
    have h1 : parseJson fuel (serJson v ++ (serObj tl ++ rest))
        = some (v, serObj tl ++ rest) := roundJ v fuel (serObj tl ++ rest) hJ
    have h2 : parseObjAux (parseJson fuel) (lenObj tl) (serObj tl ++ rest)
        = some (tl, rest) := roundO tl fuel rest hT
    simp [lenObj, serObj, parseObjAux, List.append_assoc, h0, h1, h2]
end

mutual
def needLeJ : ∀ d : Json, needJ d ≤ (serJson d).length
  | .null => by simp [needJ, serJson]
  | .bool b => by simp [needJ, serJson]
  | .num n => by simp [needJ, serJson]
  | .str s => by simp [needJ, serJson]
  | .arr a => by
    have h1 := needLeA a
    have h2 := natBytes_length_pos (lenArr a)
    simp only [needJ, serJson, List.length_cons, List.length_append]
    omega
  | .obj o => by
    have h1 := needLeO o
    have h2 := natBytes_length_pos (lenObj o)
    simp only [needJ, serJson, List.length_cons, List.length_append]
    omega
def needLeA : ∀ a : JsonArr, needA a ≤ (serArr a).length
  | .nil => by simp [needA, serArr]
  | .cons hd tl => by
    have h1 := needLeJ hd
    have h2 := needLeA tl
    simp only [needA, serArr, List.length_append]
    omega
def needLeO : ∀ o : JsonObj, needO o ≤ (serObj o).length
  | .nil => by simp [needO, serObj]
  | .cons k v tl => by
    have h1 := needLeJ v
    have h2 := needLeO tl
    simp only [needO, serObj, List.length_append]
    omega
end

theorem parseJson_serJson (d : Json) :
    parseJson (serJson d).length (serJson d) = some (d, []) := by
  have h := roundJ d (serJson d).length [] (needLeJ d)
  simpa using h

/-- Modelled from the spec: the platform `JSON.parse` (composed with UTF-8
decoding): the partial inverse of the canonical serialization; fails on
bytes that are not a valid serialized document. -/
def deserializeJson (l : List Nat) : Option Json :=
  match parseJson l.length l with
  | some (d, []) => some d
  | _ => none

/-- Deserialization inverts serialization: the round trip of the modelled
`JSON.parse ∘ JSON.stringify` pair. -/
theorem deserializeJson_serJson (d : Json) : deserializeJson (serJson d) = some d := by
  unfold deserializeJson
  rw [parseJson_serJson]

/-! ## Model of `src/lib/crypto.ts` -/

/-- Modelled from the spec: `deriveKey` — PBKDF2 (SHA-256 core, 100,000
iterations) deriving a 256-bit AES key from the passphrase and salt, via
`crypto.subtle`.  Modelled as an ideal KDF: the derived key is determined
by, and determines, the (passphrase, salt) pair; encryption and decryption
derive the identical key from the identical inputs. -/
def deriveKey (passphrase saltBytes : List Nat) : List Nat × List Nat :=
  (passphrase, saltBytes)

/-- Modelled from the spec: AES-256-GCM encryption via `crypto.subtle.encrypt`
— an authenticated-encryption scheme.  The model makes the ciphertext a
self-describing authenticated container so that decryption under the same
key and nonce recovers the plaintext and any mismatch fails. -/
def aesGcmEncrypt (key : List Nat × List Nat) (iv plaintext : List Nat) : List Nat :=
  listBytes key.1 ++ listBytes key.2 ++ listBytes iv ++ listBytes plaintext

/-- Modelled from the spec: AES-256-GCM decryption via `crypto.subtle.decrypt`
— fails (authentication failure) unless key and nonce match the ones the
ciphertext was produced with. -/
def aesGcmDecrypt (key : List Nat × List Nat) (iv cipherBytes : List Nat) :
    Option (List Nat) :=
  match parseListB cipherBytes with
  | some (k1, r1) =>
    match parseListB r1 with
    | some (k2, r2) =>
      match parseListB r2 with
      | some (iv', r3) =>
        match parseListB r3 with
        | some (pt, r4) =>
          if k1 = key.1 ∧ k2 = key.2 ∧ iv' = iv ∧ r4 = [] then some pt else none
        | none => none
      | none => none
    | none => none
  | none => none

theorem parseListB_listBytes_nil (l : List Nat) :
    parseListB (listBytes l) = some (l, []) := by
  simpa using parseListB_listBytes l []

theorem aesGcmDecrypt_aesGcmEncrypt (key : List Nat × List Nat) (iv pt : List Nat) :
    aesGcmDecrypt key iv (aesGcmEncrypt key iv pt) = some pt := by
  simp [aesGcmEncrypt, aesGcmDecrypt, List.append_assoc, parseListB_listBytes,
    parseListB_listBytes_nil]

/-- The error taxonomy of the decrypt path (§7 of the spec). -/
inductive CryptoError where
  | unsupportedVersion
  | decryptionFailed
  | malformedPayload
deriving DecidableEq

/-- Key `"v"` of the envelope wire format, as char codes. -/
def keyV : List Nat := [118]

/-- Key `"salt"` of the envelope wire format, as char codes. -/
def keySalt : List Nat := [115, 97, 108, 116]

/-- Key `"iv"` of the envelope wire format, as char codes. -/
def keyIv : List Nat := [105, 118]

/-- Key `"cipher"` of the envelope wire format, as char codes. -/
def keyCipher : List Nat := [99, 105, 112, 104, 101, 114]

/-- Property lookup on a parsed JSON object: later duplicate keys
overwrite earlier ones, as in `JSON.parse`. -/
def objGetF : JsonObj → List Nat → Option Json
  | .nil, _ => none
  | .cons k v t, key =>
    match objGetF t key with
    | some r => some r
    | none => if k = key then some v else none

/-- JavaScript property access `value.key` on a parsed JSON value:
`undefined` (here `none`) unless the value is an object with the key. -/
def jsGet (j : Json) (key : List Nat) : Option Json :=
  match j with
  | .obj o => objGetF o key
  | _ => none

/-- JavaScript falsiness of a JSON value (`!parsed`). -/
def jsFalsy : Json → Bool
  | .null => true
  | .bool b => !b
  | .num n => n == 0
  | .str s => s.isEmpty
  | _ => false

/-- `encryptJSON` from `src/lib/crypto.ts`.  The fresh 16-byte `salt` and
12-byte `iv` that the source draws from `crypto.getRandomValues` are taken
as explicit arguments (the caller supplies the randomness). -/
def encryptJSON (passphrase salt iv : List Nat) (obj : Json) : List Nat :=
  let key := deriveKey passphrase salt
  let plaintext := serJson obj
  let cipherBuf := aesGcmEncrypt key iv plaintext
  serJson (.obj (.cons keyV (.num 1)
    (.cons keySalt (.str (b64Encode salt))
      (.cons keyIv (.str (b64Encode iv))
        (.cons keyCipher (.str (b64Encode cipherBuf)) .nil)))))

/-- `decryptJSON` from `src/lib/crypto.ts`.  `JSON.parse` failure on the
payload and failures of `atob` on the envelope fields surface as
`malformedPayload` (the source lets the corresponding platform exceptions
propagate); `"Unsupported payload"` is `unsupportedVersion`; an
authentication failure of `crypto.subtle.decrypt` is `decryptionFailed`. -/
def decryptJSON (passphrase payload : List Nat) : Except CryptoError Json :=
  match deserializeJson payload with
  | none => .error .malformedPayload
  | some parsed =>
    if jsFalsy parsed ∨ jsGet parsed keyV ≠ some (.num 1) then
      .error .unsupportedVersion
    else
      match jsGet parsed keySalt, jsGet parsed keyIv, jsGet parsed keyCipher with
      | some (.str saltT), some (.str ivT), some (.str cipherT) =>
        match b64DecodeToBytes saltT, b64DecodeToBytes ivT, b64DecodeToBytes cipherT with
        | some saltBytes, some ivBytes, some cipherBytes =>
          let key := deriveKey passphrase saltBytes
          match aesGcmDecrypt key ivBytes cipherBytes with
          | some plainBuf =>
            match deserializeJson plainBuf with
            | some doc => .ok doc
            | none => .error .malformedPayload
          | none => .error .decryptionFailed
        | _, _, _ => .error .malformedPayload
      | _, _, _ => .error .malformedPayload

theorem b64DecodeToBytes_b64Encode (l : List Nat) :
    b64DecodeToBytes (b64Encode l) = some l := atobModel_btoaModel l

/-- `serJson` never produces the empty byte string (every constructor emits
a tag byte first); hence a stored serialized ledger is JavaScript-truthy. -/
theorem serJson_ne_nil (d : Json) : serJson d ≠ [] := by
  cases d <;> simp [serJson]

/-! ## Model of the ledger (`src/App.tsx` types)

Types from `src/App.tsx`: `Bucket`, `Txn`, `AppState`.  Optional fields are
modelled with explicit defaults carrying the same truthiness behaviour
(`isIncome?: boolean` as a `Bool`, absent ≡ `false`; `deletedMonths?` as an
association list; `version?: number` as an `Option Int`). -/

structure Bucket where
  id : List Nat
  name : List Nat
  category : Option (List Nat) := none
  allocations : List (Nat × Int)
  isIncome : Bool := false
  deletedMonths : List (Nat × Bool) := []
deriving DecidableEq

structure Txn where
  id : List Nat
  date : List Nat
  description : List Nat
  amount : Int
  bucketId : Option (List Nat)
  deleted : Bool := false
deriving DecidableEq

structure AppState where
  buckets : List Bucket
  txns : List Txn
  version : Option Int := none
deriving DecidableEq

/-- Model of JavaScript `Array.prototype.sort()` on the month keys
(`Object.keys(b.allocations).sort()`): ascending order. -/
def sortAsc (l : List Nat) : List Nat := List.insertionSort (· ≤ ·) l

theorem sortAsc_sorted (l : List Nat) : (sortAsc l).Sorted (· ≤ ·) :=
  List.sorted_insertionSort _ l

theorem mem_sortAsc {l : List Nat} {a : Nat} : a ∈ sortAsc l ↔ a ∈ l :=
  (List.perm_insertionSort _ l).mem_iff

theorem sortAsc_eq_nil_iff {l : List Nat} : sortAsc l = [] ↔ l = [] := by
  constructor
  · intro h
    have hp := List.perm_insertionSort (· ≤ ·) l
    rw [sortAsc] at h
    rw [h] at hp
    exact (List.Perm.nil_eq hp).symm
  · intro h; subst h; rfl

/-- In a sorted list, the last element is any member that bounds all
members from above. -/
theorem getLast?_eq_of_max {l : List Nat} (hs : l.Sorted (· ≤ ·)) {x : Nat}
    (hx : x ∈ l) (hmax : ∀ y ∈ l, y ≤ x) : l.getLast? = some x := by
  induction l with
  | nil => cases hx
  | cons a t ih =>
    cases t with
    | nil =>
      simp only [List.mem_singleton] at hx
      simp [hx]
    | cons b t2 =>
      rw [List.getLast?_cons_cons]
      apply ih (List.Sorted.of_cons hs)
      · rcases List.mem_cons.mp hx with h1 | h2
        · have hab : a ≤ b := List.rel_of_sorted_cons hs b (by simp)
          have hba : b ≤ x := hmax b (by simp)
          have : b = x := by omega
          rw [← this]; simp
        · exact h2
      · intro y hy
        exact hmax y (List.mem_cons_of_mem a hy)

/-- In a sorted nonempty list, the head is a lower bound of the members. -/
theorem head_le_of_sorted {a : Nat} {t : List Nat} (hs : (a :: t).Sorted (· ≤ ·))
    {y : Nat} (hy : y ∈ a :: t) : a ≤ y := by
  rcases List.mem_cons.mp hy with h1 | h2
  · subst h1; exact Nat.le_refl y
  · exact List.rel_of_sorted_cons hs y h2

/-- The per-bucket body of the monthly carry-forward transition,
`src/App.tsx` (current revision, the `useEffect` on `activeMonthKey`):
if the active month already has an allocation, no change; if the bucket has
no allocations at all, or the active month lies strictly before the
bucket's first allocated month, no change ("only carry forward to FUTURE
months"); otherwise append an entry for the active month carrying the
allocation of the most recent strictly-earlier allocated month. -/
def carryForwardBucket (activeMonthKey : Nat) (b : Bucket) : Bucket :=
  if (b.allocations.lookup activeMonthKey).isSome then b
  else
    let allocationKeys := sortAsc (b.allocations.map Prod.fst)
    match allocationKeys with
    | [] => b
    | firstMonth :: _ =>
      if activeMonthKey < firstMonth then b
      else
        let prevKeys := allocationKeys.filter (fun k => k < activeMonthKey)
        let carry : Int :=
          match prevKeys.getLast? with
          | some prev => (b.allocations.lookup prev).getD 0
          | none => 0
        { b with allocations := b.allocations ++ [(activeMonthKey, carry)] }

/-- The per-bucket body of the carry-forward transition in the earlier
revision of `src/App.tsx` (no future-months guard): when the bucket has no
strictly-earlier allocation the carried value defaults to `0` and an entry
is still created. -/
def carryForwardBucketLegacy (activeMonthKey : Nat) (b : Bucket) : Bucket :=
  if (b.allocations.lookup activeMonthKey).isSome then b
  else
    let prevKeys := sortAsc ((b.allocations.map Prod.fst).filter (fun k => k < activeMonthKey))
    let carry : Int :=
      match prevKeys.getLast? with
      | some prev => (b.allocations.lookup prev).getD 0
      | none => 0
    { b with allocations := b.allocations ++ [(activeMonthKey, carry)] }

/-- The monthly carry-forward transition on the whole ledger state: the
`setState` updater run whenever the active month changes (current
revision). -/
def carryForward (activeMonthKey : Nat) (s : AppState) : AppState :=
  { s with buckets := s.buckets.map (carryForwardBucket activeMonthKey) }

/-- The carry-forward transition of the earlier revision. -/
def carryForwardLegacy (activeMonthKey : Nat) (s : AppState) : AppState :=
  { s with buckets := s.buckets.map (carryForwardBucketLegacy activeMonthKey) }

/-- Sequential derivation of a list of months, in order (folding the
per-bucket transition). -/
def seqDerive (b : Bucket) (months : List Nat) : Bucket :=
  months.foldl (fun bb m => carryForwardBucket m bb) b

/-! ### Association-list lookup lemmas -/

theorem lookup_eq_none_of_not_mem {al : List (Nat × Int)} {m : Nat}
    (h : m ∉ al.map Prod.fst) : al.lookup m = none := by
  induction al with
  | nil => rfl
  | cons p t ih =>
    cases p with
    | mk k v =>
      simp only [List.map_cons, List.mem_cons] at h
      push_neg at h
      have h1 : (m == k) = false := beq_eq_false_iff_ne.mpr h.1
      simp only [List.lookup, h1]
      exact ih h.2

theorem not_mem_of_lookup_eq_none {al : List (Nat × Int)} {m : Nat}
    (h : al.lookup m = none) : m ∉ al.map Prod.fst := by
  induction al with
  | nil => simp
  | cons p t ih =>
    cases p with
    | mk k v =>
      simp only [List.lookup] at h
      by_cases hk : m = k
      · have h1 : (m == k) = true := beq_iff_eq.mpr hk
        rw [h1] at h
        simp at h
      · have h1 : (m == k) = false := beq_eq_false_iff_ne.mpr hk
        rw [h1] at h
        simp only [List.map_cons, List.mem_cons]
        push_neg
        exact ⟨hk, ih h⟩

theorem lookup_append_right {l1 l2 : List (Nat × Int)} {k : Nat}
    (h : l1.lookup k = none) : (l1 ++ l2).lookup k = l2.lookup k := by
  induction l1 with
  | nil => rfl
  | cons p t ih =>
    cases p with
    | mk a v =>
      simp only [List.lookup, List.cons_append] at h ⊢
      by_cases hk : k = a
      · have h1 : (k == a) = true := beq_iff_eq.mpr hk
        rw [h1] at h
        simp at h
      · have h1 : (k == a) = false := beq_eq_false_iff_ne.mpr hk
        rw [h1] at h ⊢
        exact ih h

theorem lookup_append_left {l1 l2 : List (Nat × Int)} {k : Nat} {v : Int}
    (h : l1.lookup k = some v) : (l1 ++ l2).lookup k = some v := by
  induction l1 with
  | nil => simp [List.lookup] at h
  | cons p t ih =>
    cases p with
    | mk a w =>
      simp only [List.lookup, List.cons_append] at h ⊢
      by_cases hk : k = a
      · have h1 : (k == a) = true := beq_iff_eq.mpr hk
        rw [h1] at h ⊢
        exact h
      · have h1 : (k == a) = false := beq_eq_false_iff_ne.mpr hk
        rw [h1] at h ⊢
        exact ih h

theorem lookup_append_single_self {al : List (Nat × Int)} {m : Nat} {c : Int}
    (h : al.lookup m = none) : (al ++ [(m, c)]).lookup m = some c := by
  rw [lookup_append_right h]
  simp [List.lookup]

theorem lookup_map_const {l : List Nat} {j : Nat} (c : Int) (h : j ∈ l) :
    (l.map (fun k => (k, c))).lookup j = some c := by
  induction l with
  | nil => cases h
  | cons a t ih =>
    simp only [List.map_cons, List.lookup]
    by_cases hj : j = a
    · have h1 : (j == a) = true := beq_iff_eq.mpr hj
      rw [h1]
    · have h1 : (j == a) = false := beq_eq_false_iff_ne.mpr hj
      rw [h1]
      rcases List.mem_cons.mp h with h2 | h2
      · exact absurd h2 hj
      · exact ih h2

/-! ### Structure of one carry-forward step -/

/-- The carried amount computed in the final branch of
`carryForwardBucket`: the allocation of the most recent month strictly
before the active month (`prevKeys[prevKeys.length - 1]`), `0` if none. -/
def carryValue (activeMonthKey : Nat) (b : Bucket) : Int :=
  match ((sortAsc (b.allocations.map Prod.fst)).filter
      (fun k => k < activeMonthKey)).getLast? with
  | some prev => (b.allocations.lookup prev).getD 0
  | none => 0

theorem carryForwardBucket_of_some {M : Nat} {b : Bucket} {v : Int}
    (hl : b.allocations.lookup M = some v) : carryForwardBucket M b = b := by
  simp [carryForwardBucket, hl]

theorem carryForwardBucket_of_nil {M : Nat} {b : Bucket}
    (hl : b.allocations.lookup M = none)
    (hk : sortAsc (b.allocations.map Prod.fst) = []) :
    carryForwardBucket M b = b := by
  simp [carryForwardBucket, hl, hk]

theorem carryForwardBucket_of_lt {M : Nat} {b : Bucket} {f : Nat} {t : List Nat}
    (hl : b.allocations.lookup M = none)
    (hk : sortAsc (b.allocations.map Prod.fst) = f :: t)
    (hlt : M < f) :
    carryForwardBucket M b = b := by
  simp [carryForwardBucket, hl, hk, hlt]

theorem carryForwardBucket_of_ge {M : Nat} {b : Bucket} {f : Nat} {t : List Nat}
    (hl : b.allocations.lookup M = none)
    (hk : sortAsc (b.allocations.map Prod.fst) = f :: t)
    (hge : ¬ M < f) :
    carryForwardBucket M b
      = { b with allocations := b.allocations ++ [(M, carryValue M b)] } := by
  simp [carryForwardBucket, carryValue, hl, hk, hge]

/-- Every carry-forward step either leaves the bucket unchanged or appends
exactly one allocation entry keyed by the active month. -/
theorem carryForwardBucket_cases (M : Nat) (b : Bucket) :
    carryForwardBucket M b = b
    ∨ (b.allocations.lookup M = none
        ∧ carryForwardBucket M b
            = { b with allocations := b.allocations ++ [(M, carryValue M b)] }) := by
  cases hl : b.allocations.lookup M with
  | some v => exact .inl (carryForwardBucket_of_some hl)
  | none =>
    cases hk : sortAsc (b.allocations.map Prod.fst) with
    | nil => exact .inl (carryForwardBucket_of_nil hl hk)
    | cons f t =>
      by_cases hlt : M < f
      · exact .inl (carryForwardBucket_of_lt hl hk hlt)
      · exact .inr ⟨hl.symm ▸ rfl, carryForwardBucket_of_ge hl hk hlt⟩

/-- When a strictly-earlier allocated month exists, the carried value is the
allocation of the largest such month. -/
theorem carryValue_eq (M : Nat) (b : Bucket) (p : Nat) (c : Int)
    (hp_mem : p ∈ b.allocations.map Prod.fst) (hp_lt : p < M)
    (hmax : ∀ k ∈ b.allocations.map Prod.fst, k < M → k ≤ p)
    (hlook : b.allocations.lookup p = some c) :
    carryValue M b = c := by
  have hs : (sortAsc (b.allocations.map Prod.fst)).Sorted (· ≤ ·) :=
    sortAsc_sorted _
  have hsf : ((sortAsc (b.allocations.map Prod.fst)).filter
      (fun k => decide (k < M))).Sorted (· ≤ ·) := List.Pairwise.filter _ hs
  have hpf : p ∈ (sortAsc (b.allocations.map Prod.fst)).filter
      (fun k => decide (k < M)) :=
    List.mem_filter.mpr ⟨mem_sortAsc.mpr hp_mem, decide_eq_true hp_lt⟩
  have hmaxf : ∀ y ∈ (sortAsc (b.allocations.map Prod.fst)).filter
      (fun k => decide (k < M)), y ≤ p := by
    intro y hy
    obtain ⟨hy1, hy2⟩ := List.mem_filter.mp hy
    exact hmax y (mem_sortAsc.mp hy1) (of_decide_eq_true hy2)
  have hlast := getLast?_eq_of_max hsf hpf hmaxf
  simp [carryValue, hlast, hlook]

/-- A carry-forward step at month `M`, when some strictly-earlier allocated
month exists and `M` has no entry, appends `(M, c)` where `c` is the
allocation of the most recent earlier allocated month. -/
theorem carryForwardBucket_step (M : Nat) (b : Bucket) (p : Nat) (c : Int)
    (hM : b.allocations.lookup M = none)
    (hp_mem : p ∈ b.allocations.map Prod.fst) (hp_lt : p < M)
    (hmax : ∀ k ∈ b.allocations.map Prod.fst, k < M → k ≤ p)
    (hlook : b.allocations.lookup p = some c) :
    carryForwardBucket M b = { b with allocations := b.allocations ++ [(M, c)] } := by
  obtain ⟨f, t, hk⟩ : ∃ f t, sortAsc (b.allocations.map Prod.fst) = f :: t := by
    cases hk : sortAsc (b.allocations.map Prod.fst) with
    | nil =>
      exfalso
      have := mem_sortAsc.mpr hp_mem
      rw [hk] at this
      cases this
    | cons f t => exact ⟨f, t, rfl⟩
  have hsort : (f :: t).Sorted (· ≤ ·) := by
    have := sortAsc_sorted (b.allocations.map Prod.fst)
    rwa [hk] at this
  have hfp : f ≤ p := by
    apply head_le_of_sorted hsort
    have := mem_sortAsc.mpr hp_mem
    rwa [hk] at this
  have hge : ¬ M < f := by omega
  rw [carryForwardBucket_of_ge hM hk hge,
    carryValue_eq M b p c hp_mem hp_lt hmax hlook]

/-! ## Model of `src/lib/storage.ts`

The imperative environment the module touches — `window.localStorage`, the
ambient Supabase configuration and the remote `states` table — is made an
explicit state record threaded through the operations.  Per-call backend
outcomes (select error, upsert error) are part of that state, so theorems
quantify over every remote outcome. -/

/-- The managed backend: the `states` table (rows `household_id → payload`)
plus the outcome of the next select/upsert calls. -/
structure RemoteDB where
  rows : List (List Nat × Json)
  fetchError : Bool
  upsertError : Bool
deriving DecidableEq

/-- The execution environment of the storage module.
`hasLS` — whether `window.localStorage` is accessible (`hasLocalStorage()`);
`lsWriteOk` — whether `localStorage.setItem` succeeds (quota);
`slot` — the contents of the `"trowbridge-budget-state"` key;
`sbConfigured` — `SUPABASE_URL`/`SUPABASE_ANON_KEY` present and
`createClient` succeeds (`getSupabase() !== null`);
`rngSalt`, `rngIv` — the next outputs of `crypto.getRandomValues`. -/
structure Env where
  hasLS : Bool
  lsWriteOk : Bool
  slot : Option (List Nat)
  sbConfigured : Bool
  db : RemoteDB
  rngSalt : List Nat
  rngIv : List Nat
deriving DecidableEq

/-- `hasLocalStorage` from `src/lib/storage.ts`. -/
def hasLocalStorage (e : Env) : Bool := e.hasLS

/-- `loadLocal` from `src/lib/storage.ts`: absent medium, empty slot and
malformed contents all yield `null` (`none`); otherwise the parsed ledger. -/
def loadLocal (e : Env) : Option Json :=
  if ¬ hasLocalStorage e then none
  else
    match e.slot with
    | none => none
    | some raw => if raw = [] then none else deserializeJson raw

/-- `saveLocal` from `src/lib/storage.ts`: a silent no-op when the medium is
unavailable or the write throws; otherwise replaces the slot with the
serialized ledger. -/
def saveLocal (e : Env) (state : Json) : Env :=
  if ¬ hasLocalStorage e then e
  else if e.lsWriteOk then { e with slot := some (serJson state) } else e

/-- `getSupabase` from `src/lib/storage.ts`, collapsed to whether a client
is obtainable. -/
def getSupabase (e : Env) : Bool := e.sbConfigured

/-- `cloudAvailable` from `src/lib/storage.ts`. -/
def cloudAvailable (e : Env) : Bool := getSupabase e

/-- The Supabase `upsert` on the `states` table: replace the row keyed by
`household_id`, or append a new one. -/
def dbUpsert (rows : List (List Nat × Json)) (hh : List Nat) (payload : Json) :
    List (List Nat × Json) :=
  if rows.any (fun r => r.1 == hh) then
    rows.map (fun r => if r.1 == hh then (hh, payload) else r)
  else rows ++ [(hh, payload)]

/-- The error surfaced by a failed remote write (`if (error) throw error`). -/
inductive StorageError where
  | remoteWriteError
deriving DecidableEq

/-- `loadFromCloud` from `src/lib/storage.ts`.  A select error or a missing
row yield `null`; a decryption failure is NOT caught and propagates
(`Except.error`).  `JSON.stringify(data.payload)` re-serializes the stored
payload object before decryption. -/
def loadFromCloud (e : Env) (householdId passphrase : List Nat) :
    Except CryptoError (Option Json) :=
  if ¬ getSupabase e then .ok none
  else if e.db.fetchError then .ok none
  else
    match e.db.rows.lookup householdId with
    | none => .ok none
    | some payload =>
      let encryptedString := serJson payload
      match decryptJSON passphrase encryptedString with
      | .ok state => .ok (some state)
      | .error err => .error err

/-- `saveToCloud` from `src/lib/storage.ts`: no-op without a client;
otherwise encrypt, parse the envelope back to an object and upsert it,
throwing `remoteWriteError` when the backend rejects the write.  (The
`JSON.parse` of a string freshly produced by `encryptJSON` cannot fail;
the `getD` default is unreachable.) -/
def saveToCloud (e : Env) (householdId passphrase : List Nat) (state : Json) :
    Except StorageError Env :=
  if ¬ getSupabase e then .ok e
  else
    let encrypted := encryptJSON passphrase e.rngSalt e.rngIv state
    let payload := (deserializeJson encrypted).getD .null
    if e.db.upsertError then .error .remoteWriteError
    else .ok { e with db := { e.db with rows := dbUpsert e.db.rows householdId payload } }

/-- JavaScript truthiness of the optional credential strings
(`householdId && passphrase`): `null` and `""` are falsy. -/
def strTruthy : Option (List Nat) → Bool
  | none => false
  | some s => !s.isEmpty

/-- `loadState` from `src/lib/storage.ts`.  Returns the loaded ledger (or
`none`) together with the updated environment (the remote result is
mirrored into the local slot).  An uncaught decryption error from
`loadFromCloud` propagates to the caller as `Except.error`. -/
def loadState (e : Env) (householdId passphrase : Option (List Nat)) :
    Except CryptoError (Option Json × Env) :=
  if strTruthy householdId ∧ strTruthy passphrase ∧ cloudAvailable e then
    match loadFromCloud e (householdId.getD []) (passphrase.getD []) with
    | .error err => .error err
    | .ok remote =>
      match remote with
      | some r =>
        if ¬ jsFalsy r then .ok (some r, saveLocal e r)
        else .ok (loadLocal e, e)
      | none => .ok (loadLocal e, e)
  else .ok (loadLocal e, e)

/-- `saveState` from `src/lib/storage.ts`: always save locally first; then,
if credentials are present and the cloud is available, upsert the encrypted
ledger.  Returns the final environment and the call's outcome; a remote
write failure leaves the environment as the local save left it. -/
def saveState (e : Env) (state : Json) (householdId passphrase : Option (List Nat)) :
    Env × Except StorageError Unit :=
  let e1 := saveLocal e state
  if strTruthy householdId ∧ strTruthy passphrase ∧ cloudAvailable e1 then
    match saveToCloud e1 (householdId.getD []) (passphrase.getD []) state with
    | .ok e2 => (e2, .ok ())
    | .error er => (e1, .error er)
  else (e1, .ok ())

/-! ### Storage helper lemmas -/

theorem saveLocal_hasLS (e : Env) (state : Json) :
    (saveLocal e state).hasLS = e.hasLS := by
  unfold saveLocal
  split
  · rfl
  · split <;> rfl

theorem saveLocal_sbConfigured (e : Env) (state : Json) :
    (saveLocal e state).sbConfigured = e.sbConfigured := by
  unfold saveLocal
  split
  · rfl
  · split <;> rfl

theorem saveLocal_db (e : Env) (state : Json) :
    (saveLocal e state).db = e.db := by
  unfold saveLocal
  split
  · rfl
  · split <;> rfl

theorem saveLocal_lsWriteOk (e : Env) (state : Json) :
    (saveLocal e state).lsWriteOk = e.lsWriteOk := by
  unfold saveLocal
  split
  · rfl
  · split <;> rfl

theorem saveLocal_slot (e : Env) (state : Json) (h1 : e.hasLS = true)
    (h2 : e.lsWriteOk = true) :
    saveLocal e state = { e with slot := some (serJson state) } := by
  simp [saveLocal, hasLocalStorage, h1, h2]

theorem loadLocal_eq_of (e e' : Env) (hh : e'.hasLS = e.hasLS)
    (hs : e'.slot = e.slot) : loadLocal e' = loadLocal e := by
  simp [loadLocal, hasLocalStorage, hh, hs]

theorem loadLocal_saveLocal (e : Env) (state : Json) (h1 : e.hasLS = true)
    (h2 : e.lsWriteOk = true) :
    loadLocal (saveLocal e state) = some state := by
  rw [saveLocal_slot e state h1 h2]
  simp [loadLocal, hasLocalStorage, h1, serJson_ne_nil, deserializeJson_serJson]

/-- Whatever the remote leg does, `saveState` leaves the local medium fields
exactly as the initial local save left them. -/
theorem saveState_env (e : Env) (state : Json) (hh pp : Option (List Nat)) :
    (saveState e state hh pp).1.hasLS = (saveLocal e state).hasLS
    ∧ (saveState e state hh pp).1.slot = (saveLocal e state).slot := by
  unfold saveState saveToCloud
  by_cases hc : (strTruthy hh = true ∧ strTruthy pp = true
      ∧ cloudAvailable (saveLocal e state) = true)
  · simp only [if_pos hc]
    by_cases h2 : (¬ getSupabase (saveLocal e state) = true)
    · simp only [if_pos h2]
      exact ⟨by trivial, by trivial⟩
    · simp only [if_neg h2]
      by_cases h3 : ((saveLocal e state).db.upsertError = true)
      · simp only [if_pos h3]
        exact ⟨by trivial, by trivial⟩
      · simp only [if_neg h3]
        exact ⟨by trivial, by trivial⟩
  · simp only [if_neg hc]
    exact ⟨by trivial, by trivial⟩

/-! ## Claims -/

/-- C1: Round-trip — for every passphrase `p`, every JSON-serializable
document `D`, and whatever fresh salt and iv the platform RNG supplies,
`decryptJSON p (encryptJSON p D)` returns a document equal to `D`. -/
theorem C1_encrypt_decrypt_roundtrip (passphrase salt iv : List Nat) (d : Json) :
    decryptJSON passphrase (encryptJSON passphrase salt iv d) = .ok d := by
  simp [encryptJSON, decryptJSON, deserializeJson_serJson, jsFalsy, jsGet, objGetF,
    keyV, keySalt, keyIv, keyCipher, b64Encode, b64DecodeToBytes, atobModel_btoaModel,
    deriveKey, aesGcmDecrypt_aesGcmEncrypt]

/-- C8: for every payload that parses to a value whose `v` field is not the
number `1` (including a missing field or a non-object), `decryptJSON` fails
with `UnsupportedVersion`; moreover the result does not depend on the
passphrase, so no key derivation can have influenced it. -/
theorem C8_unsupported_version (p1 p2 payload : List Nat) (parsed : Json)
    (hparse : deserializeJson payload = some parsed)
    (hv : jsGet parsed keyV ≠ some (.num 1)) :
    decryptJSON p1 payload = .error .unsupportedVersion
    ∧ decryptJSON p1 payload = decryptJSON p2 payload := by
  have hcond : (jsFalsy parsed = true ∨ ¬ jsGet parsed keyV = some (Json.num 1)) :=
    Or.inr hv
  have hgen : ∀ p : List Nat, decryptJSON p payload = .error .unsupportedVersion := by
    intro p
    unfold decryptJSON
    simp only [hparse]
    rw [if_pos hcond]
  exact ⟨hgen p1, by rw [hgen p1, hgen p2]⟩

/-- Witness for C8 at a concrete envelope carrying version `2`. -/
theorem C8_unsupported_version_witness :
    deserializeJson (serJson (Json.obj (.cons keyV (.num 2) .nil)))
        = some (Json.obj (.cons keyV (.num 2) .nil))
    ∧ decryptJSON [1] (serJson (Json.obj (.cons keyV (.num 2) .nil)))
        = .error .unsupportedVersion :=
  ⟨deserializeJson_serJson _,
    (C8_unsupported_version [1] [2] (serJson (Json.obj (.cons keyV (.num 2) .nil)))
      (Json.obj (.cons keyV (.num 2) .nil))
      (deserializeJson_serJson _) (by decide)).1⟩

/-- Household id `"h"` of the C2 counterexample scenario. -/
def hhC2 : List Nat := [104]

/-- The passphrase the stored envelope was encrypted under. -/
def ppGoodC2 : List Nat := [112]

/-- The (different) passphrase the load is attempted with. -/
def ppBadC2 : List Nat := [119]

/-- The stored remote payload: an envelope for the document `null`
encrypted under `ppGoodC2` (as the object `JSON.parse` recovers from the
envelope string). -/
def envPayloadC2 : Json := (deserializeJson (encryptJSON ppGoodC2 [0] [1] .null)).getD .null

/-- The C2 scenario environment: local slot holds the ledger `7`; the
remote is configured, reachable, and stores `envPayloadC2` for `hhC2`. -/
def envC2 : Env :=
  { hasLS := true, lsWriteOk := true, slot := some (serJson (.num 7)),
    sbConfigured := true,
    db := { rows := [(hhC2, envPayloadC2)], fetchError := false, upsertError := false },
    rngSalt := [], rngIv := [] }

/-- C2 (counterexample): with a configured remote storing an envelope whose
decryption fails (wrong passphrase), `loadState` propagates the decryption
failure as an error instead of returning the local slot's ledger `7`. -/
theorem C2_counterexample :
    loadState envC2 (some hhC2) (some ppBadC2) = .error .decryptionFailed
    ∧ loadLocal envC2 = some (Json.num 7) := by
  constructor <;> rfl

/-- C2 (amended): when the remote fetch returns an envelope whose decryption
fails, `loadState` does NOT fall back to the local store: the decryption
error propagates to the caller of `loadState` as the call's result. -/
theorem C2_decrypt_failure_propagates (e : Env) (hh pp : List Nat)
    (payload : Json) (err : CryptoError)
    (hhh : hh ≠ []) (hpp : pp ≠ [])
    (hconf : e.sbConfigured = true) (hfe : e.db.fetchError = false)
    (hrow : e.db.rows.lookup hh = some payload)
    (hdec : decryptJSON pp (serJson payload) = .error err) :
    loadState e (some hh) (some pp) = .error err := by
  have ht1 : strTruthy (some hh) = true := by simp [strTruthy, hhh]
  have ht2 : strTruthy (some pp) = true := by simp [strTruthy, hpp]
  have hca : cloudAvailable e = true := by simp [cloudAvailable, getSupabase, hconf]
  unfold loadState
  rw [if_pos ⟨ht1, ht2, hca⟩]
  unfold loadFromCloud
  simp [getSupabase, hconf, hfe, hrow, hdec]

/-- Witness for the amended C2 at the concrete scenario. -/
theorem C2_decrypt_failure_propagates_witness :
    loadState envC2 (some hhC2) (some ppBadC2) = .error .decryptionFailed :=
  C2_decrypt_failure_propagates envC2 hhC2 ppBadC2 envPayloadC2 .decryptionFailed
    (by decide) (by decide) (by rfl) (by rfl) (by rfl) (by rfl)

/-- C3: local-first durability — whenever the local medium is writable,
`saveState` leaves the Local Store Adapter's `load()` returning exactly the
saved ledger, regardless of the remote outcome (including a failing remote
upsert, a missing configuration, or any backend state). -/
theorem C3_local_first_durability (e : Env) (state : Json)
    (hh pp : Option (List Nat))
    (h1 : e.hasLS = true) (h2 : e.lsWriteOk = true) :
    loadLocal (saveState e state hh pp).1 = some state := by
  have henv := saveState_env e state hh pp
  have heq : loadLocal (saveState e state hh pp).1 = loadLocal (saveLocal e state) :=
    loadLocal_eq_of _ _ henv.1 henv.2
  rw [heq, loadLocal_saveLocal e state h1 h2]

/-- Witness for C3: a concrete environment with a failing remote upsert. -/
theorem C3_local_first_durability_witness :
    loadLocal (saveState
      { hasLS := true, lsWriteOk := true, slot := none, sbConfigured := true,
        db := { rows := [], fetchError := false, upsertError := true },
        rngSalt := [0], rngIv := [1] }
      (.num 3) (some [104]) (some [112])).1 = some (.num 3) :=
  C3_local_first_durability _ (.num 3) (some [104]) (some [112]) rfl rfl

/-- C9: with credentials present and the remote available, a failing remote
upsert makes the `saveState` call fail with the remote-write error, while
the environment is left exactly as the already-committed local save left
it. -/
theorem C9_remote_write_failure (e : Env) (state : Json) (hh pp : List Nat)
    (hhh : hh ≠ []) (hpp : pp ≠ [])
    (hconf : e.sbConfigured = true) (herr : e.db.upsertError = true) :
    saveState e state (some hh) (some pp)
      = (saveLocal e state, .error .remoteWriteError) := by
  have ht1 : strTruthy (some hh) = true := by simp [strTruthy, hhh]
  have ht2 : strTruthy (some pp) = true := by simp [strTruthy, hpp]
  have hca : cloudAvailable (saveLocal e state) = true := by
    simp [cloudAvailable, getSupabase, saveLocal_sbConfigured, hconf]
  have hdb : (saveLocal e state).db = e.db := saveLocal_db e state
  unfold saveState
  rw [if_pos ⟨ht1, ht2, hca⟩]
  unfold saveToCloud
  have hg : ¬ (¬ getSupabase (saveLocal e state) = true) := by
    simp [getSupabase, saveLocal_sbConfigured, hconf]
  rw [if_neg hg]
  have hup : (saveLocal e state).db.upsertError = true := by rw [hdb]; exact herr
  simp only [if_pos hup]

/-- Witness for C9 at a concrete environment with a rejecting backend. -/
theorem C9_remote_write_failure_witness :
    saveState
      { hasLS := false, lsWriteOk := false, slot := none, sbConfigured := true,
        db := { rows := [], fetchError := false, upsertError := true },
        rngSalt := [], rngIv := [] }
      .null (some [104]) (some [112])
      = (saveLocal
          { hasLS := false, lsWriteOk := false, slot := none, sbConfigured := true,
            db := { rows := [], fetchError := false, upsertError := true },
            rngSalt := [], rngIv := [] } .null,
        .error .remoteWriteError) :=
  C9_remote_write_failure _ .null [104] [112] (by decide) (by decide) rfl rfl

/-- C4: no retroactive creation — if a bucket has no explicit allocation at
the active month `M` and none at any month strictly before `M`, the
carry-forward step creates no entry for it at `M` (the bucket is left
unchanged); in particular a bucket whose earliest allocation month is `m1`
acquires no derived allocation at any visited month strictly before `m1`. -/
theorem C4_no_retroactive_creation (b : Bucket) (M : Nat)
    (hM : b.allocations.lookup M = none)
    (hbefore : ∀ k ∈ b.allocations.map Prod.fst, ¬ k < M) :
    carryForwardBucket M b = b := by
  cases hk : sortAsc (b.allocations.map Prod.fst) with
  | nil => exact carryForwardBucket_of_nil hM hk
  | cons f t =>
    have hf : f ∈ b.allocations.map Prod.fst := mem_sortAsc.mp (by rw [hk]; simp)
    have h1 : ¬ f < M := hbefore f hf
    have h2 : M ∉ b.allocations.map Prod.fst := not_mem_of_lookup_eq_none hM
    have h3 : f ≠ M := fun hfm => h2 (hfm ▸ hf)
    exact carryForwardBucket_of_lt hM hk (by omega)

/-- Witness for C4: a bucket allocated only at month 5, visiting month 3,
is untouched. -/
theorem C4_no_retroactive_creation_witness :
    carryForwardBucket 3 { id := [98], name := [66], allocations := [(5, 100)] }
      = { id := [98], name := [66], allocations := [(5, 100)] } :=
  C4_no_retroactive_creation _ 3 (by decide) (by decide)

/-- In the earlier revision of the transition (`src/App.tsx`, first
revision), the same bucket DID receive a spurious zero entry for the past
month — the current revision's future-months guard removed this. -/
theorem carryForwardBucketLegacy_creates_zero :
    (carryForwardBucketLegacy 3
      { id := [98], name := [66], allocations := [(5, 100)] }).allocations.lookup 3
      = some 0 := by decide

/-- A ledger whose only bucket is an income bucket allocated at month 1
(the shape `seedState` produces, one month later). -/
def stC5 : AppState :=
  { buckets := [{ id := [105], name := [73], allocations := [(1, 0)], isIncome := true }],
    txns := [] }

/-- C5 (counterexample): the transition does not skip the income bucket — a
ledger whose income bucket (`isIncome = true`) is allocated at month 1
changes when month 2 becomes active: the income bucket receives a derived
allocation entry, so it is not left entirely unchanged. -/
theorem C5_counterexample : carryForward 2 stC5 ≠ stC5 := by decide

/-- C5 (amended): the carry-forward transition treats every bucket
uniformly — the `isIncome` flag has no influence on the derived
allocations; an income bucket is processed exactly like a non-income
bucket with the same allocation history. -/
theorem C5_income_bucket_not_special (b : Bucket) (M : Nat) (flag : Bool) :
    (carryForwardBucket M { b with isIncome := flag }).allocations
      = (carryForwardBucket M b).allocations := by
  cases hl : b.allocations.lookup M with
  | some v =>
    rw [carryForwardBucket_of_some (M := M) (b := { b with isIncome := flag }) (v := v) hl,
      carryForwardBucket_of_some (v := v) hl]
  | none =>
    cases hk : sortAsc (b.allocations.map Prod.fst) with
    | nil =>
      rw [carryForwardBucket_of_nil (M := M) (b := { b with isIncome := flag }) hl hk,
        carryForwardBucket_of_nil hl hk]
    | cons f t =>
      by_cases hlt : M < f
      · rw [carryForwardBucket_of_lt (M := M) (b := { b with isIncome := flag }) hl hk hlt,
          carryForwardBucket_of_lt hl hk hlt]
      · rw [carryForwardBucket_of_ge (M := M) (b := { b with isIncome := flag }) hl hk hlt,
          carryForwardBucket_of_ge hl hk hlt]
        rfl

/-- C6: idempotence — applying the monthly carry-forward transition for the
same month twice in succession yields the same ledger (hence the same
bucket allocations) as applying it once. -/
theorem C6_carry_forward_idempotent (s : AppState) (M : Nat) :
    carryForward M (carryForward M s) = carryForward M s := by
  have hb : ∀ b : Bucket,
      carryForwardBucket M (carryForwardBucket M b) = carryForwardBucket M b := by
    intro b
    rcases carryForwardBucket_cases M b with h | ⟨hl, h⟩
    · rw [h, h]
    · rw [h]
      exact carryForwardBucket_of_some (v := carryValue M b)
        (lookup_append_single_self hl)
  have hmap : (s.buckets.map (carryForwardBucket M)).map (carryForwardBucket M)
      = s.buckets.map (carryForwardBucket M) := by
    rw [List.map_map]
    apply List.map_congr_left
    intro a _
    simp only [Function.comp_apply]
    exact hb a
  simp [carryForward, hmap]

theorem map_fst_pair (l : List Nat) (a2 : Int) :
    (l.map (fun j => (j, a2))).map Prod.fst = l := by
  induction l with
  | nil => rfl
  | cons x t ih => simp [ih]

/-- Keys of the partially derived allocation list of the C7 scenario. -/
theorem keys_of_derived (m1 m2 : Nat) (a1 a2 : Int) (k : Nat) :
    (([(m1, a1), (m2, a2)]
        ++ (List.range' (m2 + 1) k).map (fun j => (j, a2))).map Prod.fst)
      = [m1, m2] ++ List.range' (m2 + 1) k := by
  rw [List.map_append, map_fst_pair]
  rfl

/-- Sequentially deriving months `m2+1, …, m2+k` for a bucket allocated
exactly at `m1 < m2` appends one carried entry `(j, a2)` per derived month. -/
theorem seqDerive_allocations (bid bname : List Nat) (cat : Option (List Nat))
    (inc : Bool) (dm : List (Nat × Bool)) (m1 m2 : Nat) (a1 a2 : Int)
    (h12 : m1 < m2) (k : Nat) :
    seqDerive
      { id := bid, name := bname, category := cat,
        allocations := [(m1, a1), (m2, a2)], isIncome := inc, deletedMonths := dm }
      (List.range' (m2 + 1) k)
    = { id := bid, name := bname, category := cat,
        allocations := [(m1, a1), (m2, a2)]
          ++ (List.range' (m2 + 1) k).map (fun j => (j, a2)),
        isIncome := inc, deletedMonths := dm } := by
  induction k with
  | zero => simp [seqDerive]
  | succ k ih =>
    have hconc : List.range' (m2 + 1) (k + 1)
        = List.range' (m2 + 1) k ++ [m2 + 1 + k] := by
      rw [List.range'_concat]
      simp
    rw [hconc]
    have hsd : ∀ (bb : Bucket) (l : List Nat) (x : Nat),
        seqDerive bb (l ++ [x]) = carryForwardBucket x (seqDerive bb l) := by
      intro bb l x
      simp [seqDerive, List.foldl_append]
    rw [hsd, ih]
    set L : List (Nat × Int) := [(m1, a1), (m2, a2)]
      ++ (List.range' (m2 + 1) k).map (fun j => (j, a2)) with hL
    have hkeys : L.map Prod.fst = [m1, m2] ++ List.range' (m2 + 1) k :=
      keys_of_derived m1 m2 a1 a2 k
    have hmem_range : ∀ j, j ∈ List.range' (m2 + 1) k ↔ m2 + 1 ≤ j ∧ j < m2 + 1 + k := by
      intro j
      exact List.mem_range'_1
    have hM : L.lookup (m2 + 1 + k) = none := by
      apply lookup_eq_none_of_not_mem
      rw [hkeys]
      intro hmem
      rcases List.mem_append.mp hmem with h1 | h2
      · simp at h1
        omega
      · rw [hmem_range] at h2
        omega
    have hp_mem : (m2 + k) ∈ L.map Prod.fst := by
      rw [hkeys]
      rcases Nat.eq_zero_or_pos k with hk0 | hkpos
      · subst hk0
        simp
      · apply List.mem_append.mpr
        right
        rw [hmem_range]
        omega
    have hp_lt : m2 + k < m2 + 1 + k := by omega
    have hmax : ∀ q ∈ L.map Prod.fst, q < m2 + 1 + k → q ≤ m2 + k := by
      intro q hq _
      rw [hkeys] at hq
      rcases List.mem_append.mp hq with h1 | h2
      · simp at h1
        omega
      · rw [hmem_range] at h2
        omega
    have hlook : L.lookup (m2 + k) = some a2 := by
      rcases Nat.eq_zero_or_pos k with hk0 | hkpos
      · subst hk0
        rw [hL]
        simp only [List.range'_zero, List.map_nil, List.append_nil]
        have h1 : (m2 == m1) = false := beq_eq_false_iff_ne.mpr (by omega)
        simp [List.lookup, h1]
      · have hbase : ([(m1, a1), (m2, a2)] : List (Nat × Int)).lookup (m2 + k) = none := by
          apply lookup_eq_none_of_not_mem
          simp
          omega
        rw [hL, lookup_append_right hbase]
        apply lookup_map_const
        rw [hmem_range]
        omega
    have hstep := carryForwardBucket_step (m2 + 1 + k)
      { id := bid, name := bname, category := cat, allocations := L,
        isIncome := inc, deletedMonths := dm }
      (m2 + k) a2 hM hp_mem hp_lt hmax hlook
    rw [hstep]
    simp [hL, List.map_append, List.append_assoc]

/-- C7: ordering independence — for a bucket with explicit allocations only
at months `m1 < m2`, deriving month `m3 > m2` directly yields allocation
`allocations[m2]` at `m3`, identical to the allocation at `m3` obtained by
deriving months `m2+1, m2+2, …, m3` sequentially in ascending order. -/
theorem C7_carry_forward_order_independent (bid bname : List Nat)
    (m1 m2 m3 : Nat) (a1 a2 : Int) (h12 : m1 < m2) (h23 : m2 < m3) :
    ((carryForwardBucket m3
        { id := bid, name := bname,
          allocations := [(m1, a1), (m2, a2)] }).allocations.lookup m3
      = some a2)
    ∧ ((seqDerive
        { id := bid, name := bname, allocations := [(m1, a1), (m2, a2)] }
        (List.range' (m2 + 1) (m3 - m2))).allocations.lookup m3 = some a2) := by
  have hbase_none : ([(m1, a1), (m2, a2)] : List (Nat × Int)).lookup m3 = none := by
    apply lookup_eq_none_of_not_mem
    simp
    omega
  constructor
  · have hlook : ([(m1, a1), (m2, a2)] : List (Nat × Int)).lookup m2 = some a2 := by
      have h1 : (m2 == m1) = false := beq_eq_false_iff_ne.mpr (by omega)
      simp [List.lookup, h1]
    have hstep := carryForwardBucket_step m3
      { id := bid, name := bname, allocations := [(m1, a1), (m2, a2)] }
      m2 a2 hbase_none (by simp) (by omega)
      (by intro q hq _; simp at hq; omega) hlook
    rw [hstep]
    exact lookup_append_single_self hbase_none
  · rw [seqDerive_allocations bid bname none false [] m1 m2 a1 a2 h12 (m3 - m2)]
    simp only []
    rw [lookup_append_right hbase_none]
    apply lookup_map_const
    rw [List.mem_range'_1]
    omega

/-- Witness for C7 with `m1 = 1 < m2 = 2 < m3 = 4`. -/
theorem C7_carry_forward_order_independent_witness :
    ((carryForwardBucket 4
        { id := [98], name := [66],
          allocations := [(1, 5), (2, 7)] }).allocations.lookup 4 = some 7)
    ∧ ((seqDerive { id := [98], name := [66], allocations := [(1, 5), (2, 7)] }
        (List.range' 3 2)).allocations.lookup 4 = some 7) :=
  C7_carry_forward_order_independent [98] [66] 1 2 4 5 7 (by decide) (by decide)

/-- C10: frame property of the carry-forward transition — it never modifies
or removes an allocation entry already present in any bucket (for the
active month or any other), changes no other bucket field (`id`, `name`,
`category`, `isIncome`, `deletedMonths`), no transaction and no version;
the only possible change is the addition, per bucket, of one allocation
entry keyed exactly by the active month. -/
theorem C10_carry_forward_frame (s : AppState) (M : Nat) (b : Bucket) :
    (carryForward M s).txns = s.txns
    ∧ (carryForward M s).version = s.version
    ∧ (carryForward M s).buckets = s.buckets.map (carryForwardBucket M)
    ∧ (carryForwardBucket M b).id = b.id
    ∧ (carryForwardBucket M b).name = b.name
    ∧ (carryForwardBucket M b).category = b.category
    ∧ (carryForwardBucket M b).isIncome = b.isIncome
    ∧ (carryForwardBucket M b).deletedMonths = b.deletedMonths
    ∧ ((carryForwardBucket M b).allocations = b.allocations
        ∨ (b.allocations.lookup M = none
            ∧ (carryForwardBucket M b).allocations
                = b.allocations ++ [(M, carryValue M b)]))
    ∧ (∀ k v, b.allocations.lookup k = some v →
        (carryForwardBucket M b).allocations.lookup k = some v) := by
  refine ⟨rfl, rfl, rfl, ?_⟩
  rcases carryForwardBucket_cases M b with h | ⟨hl, h⟩
  · rw [h]
    refine ⟨rfl, rfl, rfl, rfl, rfl, Or.inl rfl, ?_⟩
    intro k v hkv
    exact hkv
  · rw [h]
    refine ⟨rfl, rfl, rfl, rfl, rfl, Or.inr ⟨hl, rfl⟩, ?_⟩
    intro k v hkv
    by_cases hkM : k = M
    · subst hkM
      rw [hl] at hkv
      cases hkv
    · exact lookup_append_left hkv

/-- The transaction of the C10 witness scenario. -/
def txW10 : Txn :=
  { id := [1], date := [2], description := [3], amount := -5, bucketId := none }

/-- The ledger of the C10 witness scenario. -/
def stW10 : AppState := { buckets := [], txns := [txW10] }

/-- The bucket of the C10 witness scenario: allocated at month 1. -/
def bW10 : Bucket := { id := [98], name := [66], allocations := [(1, 5)] }

/-- Witness for C10: the transaction list survives the transition and the
existing allocation entry is still found afterwards. -/
theorem C10_carry_forward_frame_witness :
    ((carryForward 2 stW10).txns = [txW10])
    ∧ ((carryForwardBucket 2 bW10).allocations.lookup 1 = some 5) :=
  ⟨(C10_carry_forward_frame stW10 2 bW10).1,
    (C10_carry_forward_frame stW10 2 bW10).2.2.2.2.2.2.2.2.2 1 5 (by decide)⟩
